import Mathlib

/-!
Verification of the ngx-pure-pipes aggregate and template utilities.

This file shallowly embeds the transformation pipes of the repository
(`SumPipe`, `MeanPipe`, `MinPipe`, `MaxPipe`, `GroupByPipe` from
`src/.../aggregate` and the min pipe source, and `TemplatePipe` from
`src/.../string/template.pipe.ts`) and proves the documented behavioural
properties about them.

Modelling decisions:
- JavaScript numbers are modelled as exact rationals plus a separate `nan`
  value.  Infinities are not modelled (no pipe produces one on the inputs
  considered here); division by zero is mapped to `nan`.
- Array elements are either primitive values or flat objects with
  primitive-valued fields, which covers every shape the pipes observe.
- String-to-number conversion is modelled for integer numerals (the pipes
  under verification never aggregate non-numeric strings on the claims'
  inputs); number-to-string conversion renders integers exactly and
  non-integral rationals by bounded decimal expansion.
- The `template` pipe's regular expression argument is modelled by the
  delimiter-pair family `open ++ lazy-nonempty-content ++ close`, which
  contains the default `/\x7b\x7b(.+?)\x7d\x7d/g` matcher and the custom
  matchers documented for the pipe; the lazy, global, left-to-right
  semantics of `String.prototype.replace` is implemented directly.
-/

/-- A primitive JavaScript value as observed by the pipes: `undefined`,
`null`, a boolean, a (non-NaN) number, `NaN`, or a string. -/
inductive JScalar where
  | undefined
  | null
  | bool (b : Bool)
  | num (q : ℚ)
  | nan
  | str (s : String)
deriving DecidableEq, Repr

/-- An array element: a primitive value or a flat object mapping field
names to primitive values. -/
inductive JItem where
  | prim (s : JScalar)
  | obj (fields : List (String × JScalar))
deriving DecidableEq, Repr

/-- The argument each aggregate pipe receives: either a valid array of
elements, or any other value (`null`, `undefined`, a number, a string, an
object, ...), for which `Array.isArray` is `false`. -/
inductive Input where
  | arr (xs : List JItem)
  | notArr (v : JItem)
deriving DecidableEq, Repr

/-- The `getter` argument of the aggregate pipes: omitted (`undefined`),
a unary function, or any other value, which the source code's fall-through
branch uses as a property key (`v[getter]`). -/
inductive GetterArg where
  | undefined
  | fn (f : JItem → JItem)
  | other (k : JItem)

/-- Bounded decimal expansion of a rational in `[0, 1)`, used to render the
fractional part of a number the way `String(number)` does for terminating
decimals. -/
def fracDigits : Nat → ℚ → String
  | 0, _ => ""
  | n + 1, x =>
    if x = 0 then ""
    else
      let y := x * 10
      let d := ⌊y⌋
      String.singleton (Char.ofNat (48 + d.toNat)) ++ fracDigits n (y - (d : ℚ))

/-- Default string conversion of a number (`String(q)`): integers in
decimal form, other rationals as sign, integer part and decimal digits. -/
def ratToString (q : ℚ) : String :=
  if q.den = 1 then toString q.num
  else
    let sgn := if q < 0 then "-" else ""
    let r := |q|
    let ip := ⌊r⌋
    sgn ++ toString ip ++ "." ++ fracDigits 30 (r - (ip : ℚ))

/-- JavaScript default string conversion of a primitive value. -/
def jsToStringScalar : JScalar → String
  | .undefined => "undefined"
  | .null => "null"
  | .bool b => if b then "true" else "false"
  | .num q => ratToString q
  | .nan => "NaN"
  | .str s => s

/-- JavaScript default string conversion of an element (`String(v)`);
plain objects render as `[object Object]`. -/
def jsToString : JItem → String
  | .prim s => jsToStringScalar s
  | .obj _ => "[object Object]"

/-- Value of a digit string, when every character is a decimal digit. -/
def digitsVal (l : List Char) : Option Nat :=
  if l = [] then none
  else if l.all (fun c => c.isDigit) then
    some (l.foldl (fun acc c => acc * 10 + (c.toNat - 48)) 0)
  else none

/-- Number conversion of a string (`Number(s)`), modelled for the empty
string and integer numerals; other strings convert to `NaN` (`none`). -/
def strToNum (s : String) : Option ℚ :=
  match s.data with
  | [] => some 0
  | '-' :: rest => (digitsVal rest).map (fun n => -(n : ℚ))
  | l => (digitsVal l).map (fun n => (n : ℚ))

/-- Number conversion of a primitive value (`Number(v)`); `none` is `NaN`. -/
def toNumScalar : JScalar → Option ℚ
  | .num q => some q
  | .nan => none
  | .undefined => none
  | .null => some 0
  | .bool b => some (if b then 1 else 0)
  | .str s => strToNum s

/-- `ToPrimitive` on an element: primitives are themselves, plain objects
convert to the string `[object Object]`. -/
def toPrimItem : JItem → JScalar
  | .prim s => s
  | .obj _ => .str "[object Object]"

/-- JavaScript addition `a + b`: string concatenation when either operand
converts to a string, numeric addition with `NaN` propagation otherwise. -/
def jsAdd (a b : JItem) : JItem :=
  match toPrimItem a, toPrimItem b with
  | .str sa, pb => .prim (.str (sa ++ jsToStringScalar pb))
  | pa, .str sb => .prim (.str (jsToStringScalar pa ++ sb))
  | pa, pb =>
    match toNumScalar pa, toNumScalar pb with
    | some x, some y => .prim (.num (x + y))
    | _, _ => .prim .nan

/-- JavaScript division `a / b` (always numeric); division by zero is
mapped to `nan` (the pipes never divide by zero). -/
def jsDiv (a b : JItem) : JItem :=
  match toNumScalar (toPrimItem a), toNumScalar (toPrimItem b) with
  | some x, some y => if y = 0 then .prim .nan else .prim (.num (x / y))
  | _, _ => .prim .nan

/-- JavaScript comparison `a >= b`: lexicographic when both operands are
strings, numeric otherwise, false when either side is `NaN`. -/
def jsGe (a b : JItem) : Bool :=
  match toPrimItem a, toPrimItem b with
  | .str sa, .str sb => decide (sb ≤ sa)
  | pa, pb =>
    match toNumScalar pa, toNumScalar pb with
    | some x, some y => decide (y ≤ x)
    | _, _ => false

/-- JavaScript comparison `a <= b`: lexicographic when both operands are
strings, numeric otherwise, false when either side is `NaN`. -/
def jsLe (a b : JItem) : Bool :=
  match toPrimItem a, toPrimItem b with
  | .str sa, .str sb => decide (sa ≤ sb)
  | pa, pb =>
    match toNumScalar pa, toNumScalar pb with
    | some x, some y => decide (x ≤ y)
    | _, _ => false

/-- Property read `v[key]` on an element: field lookup on objects,
`undefined` otherwise. -/
def getProp (it : JItem) (key : String) : JScalar :=
  match it with
  | .obj fields => (List.lookup key fields).getD .undefined
  | .prim _ => .undefined

/-- The shared `get` helper of the aggregate pipes: a function getter is
applied, an omitted getter returns the element itself, and any other
getter value is used as a property key (`v[getter]`, whose key coerces to
its string representation). -/
def extractVal (getter : GetterArg) (v : JItem) : JItem :=
  match getter with
  | .fn f => f v
  | .undefined => v
  | .other k => .prim (getProp v (jsToString k))

/-- `SumPipe.transform`: `null` for non-arrays, otherwise the reduction
`value.reduce((acc, item) => acc + get(item), 0)`. -/
def SumPipe.transform : Input → GetterArg → JItem
  | .notArr _, _ => .prim .null
  | .arr xs, g => xs.foldl (fun acc item => jsAdd acc (extractVal g item)) (.prim (.num 0))

/-- `MeanPipe.transform`: `null` for non-arrays and for the empty array,
otherwise the total of the extracted values divided by the length. -/
def MeanPipe.transform : Input → GetterArg → JItem
  | .notArr _, _ => .prim .null
  | .arr xs, g =>
    if xs.length = 0 then .prim .null
    else jsDiv (xs.foldl (fun acc item => jsAdd acc (extractVal g item)) (.prim (.num 0)))
      (.prim (.num (xs.length : ℚ)))

/-- `MaxPipe.transform`: `null` for non-arrays and for the empty array,
otherwise `value.reduce((a, b) => get(a) >= get(b) ? a : b)`. -/
def MaxPipe.transform : Input → GetterArg → JItem
  | .notArr _, _ => .prim .null
  | .arr [], _ => .prim .null
  | .arr (x :: rest), g =>
    rest.foldl (fun a b => if jsGe (extractVal g a) (extractVal g b) then a else b) x

/-- `MinPipe.transform`: `null` for non-arrays and for the empty array,
otherwise `value.reduce((a, b) => get(a) <= get(b) ? a : b)`. -/
def MinPipe.transform : Input → GetterArg → JItem
  | .notArr _, _ => .prim .null
  | .arr [], _ => .prim .null
  | .arr (x :: rest), g =>
    rest.foldl (fun a b => if jsLe (extractVal g a) (extractVal g b) then a else b) x

/-- First-match association lookup, the behaviour of reading a property of
a plain object whose keys were inserted by the group-by reduction. -/
def assocFind {α : Type} : List (String × α) → String → Option α
  | [], _ => none
  | (k, v) :: rest, key => if k = key then some v else assocFind rest key

/-- Replace the value stored under an existing key, keeping its position;
this is what `{...groups, [key]: group}` does for a present key. -/
def assocSet {α : Type} : List (String × α) → String → α → List (String × α)
  | [], _, _ => []
  | (k, v) :: rest, key, newV =>
    if k = key then (k, newV) :: rest else (k, v) :: assocSet rest key newV

/-- One step of the group-by reduction: stringify the element's key value,
then either start a new group or append to the existing one
(`!groups[key] ? [item] : [...groups[key], item]`). -/
def groupStep (groupKey : String) (groups : List (String × List JItem)) (item : JItem) :
    List (String × List JItem) :=
  let key := jsToStringScalar (getProp item groupKey)
  match assocFind groups key with
  | none => groups ++ [(key, [item])]
  | some g => assocSet groups key (g ++ [item])

/-- `GroupByPipe.transform`: `null` (here `none`) for non-arrays, otherwise
the reduction of `groupStep` starting from the empty object. -/
def GroupByPipe.transform : Input → String → Option (List (String × List JItem))
  | .notArr _, _ => none
  | .arr xs, groupKey => some (xs.foldl (groupStep groupKey) [])

/-- The string representation under which an element is grouped. -/
def keyStr (groupKey : String) (item : JItem) : String :=
  jsToStringScalar (getProp item groupKey)

/-- The sub-sequence of elements of `xs` grouped under the string `s`. -/
def filterKey (groupKey s : String) (xs : List JItem) : List JItem :=
  xs.filter (fun x => keyStr groupKey x == s)

/-- The numeric value of an element when it is a number, zero otherwise;
used to name extracted values in theorem statements. -/
def qOf : JItem → ℚ
  | .prim (.num q) => q
  | _ => 0

/-- Character lists, the representation on which the template matcher is
modelled. -/
abbrev Chars := List Char

/-- A matcher of the delimiter-pair family `open (.+?) close`, modelling
the regular expressions accepted by the template pipe: the default
`\x7b\x7b(.+?)\x7d\x7d` and the documented custom matchers all have this
shape, with exactly one capture group holding the variable name. -/
structure DelimPattern where
  openD : Chars
  closeD : Chars
deriving DecidableEq, Repr

/-- The default double-curly-brace matcher `/\x7b\x7b(.+?)\x7d\x7d/g`. -/
def defaultPattern : DelimPattern :=
  ⟨['\x7b', '\x7b'], ['\x7d', '\x7d']⟩

/-- Lazy search for the capture of `(.+?) close` at the start of `s`: the
shortest non-empty newline-free content followed immediately by the close
delimiter.  Returns the content and the remainder after the close. -/
def findClose (closeD : Chars) : Chars → Option (Chars × Chars)
  | [] => none
  | c :: rest =>
    if c = '\n' then none
    else if closeD.isPrefixOf rest then some ([c], rest.drop closeD.length)
    else
      match findClose closeD rest with
      | some (content, after) => some (c :: content, after)
      | none => none

/-- Global left-to-right replacement of `String.prototype.replace` with a
`g`-flagged matcher: at each position, the matcher is tried; on a match
the replacement callback output is emitted and scanning resumes after the
match, otherwise one character is emitted verbatim.  The fuel argument is
the remaining input length, which each step strictly decreases. -/
def scanAux (openD closeD : Chars) (res : Chars → Chars → Chars) : Nat → Chars → Chars
  | 0, s => s
  | _ + 1, [] => []
  | fuel + 1, c :: rest =>
    if openD.isPrefixOf (c :: rest) then
      match findClose closeD ((c :: rest).drop openD.length) with
      | some (content, after) =>
        res content (openD ++ content ++ closeD) ++ scanAux openD closeD res fuel after
      | none => c :: scanAux openD closeD res fuel rest
    else c :: scanAux openD closeD res fuel rest

/-- Replacement of every match of the delimiter pattern in `s`. -/
def scanRepl (openD closeD : Chars) (res : Chars → Chars → Chars) (s : Chars) : Chars :=
  scanAux openD closeD res s.length s

/-- The replacement callback of the template pipe,
`(match, key) => String(variables[key] ?? match)`: a present non-nullish
value is converted to its string form, otherwise the full matched
placeholder text is kept. -/
def resolveKey (vars : List (String × JItem)) (key full : Chars) : Chars :=
  match assocFind vars (String.mk key) with
  | some v => if v = .prim .null ∨ v = .prim .undefined then full else (jsToString v).data
  | none => full

/-- `TemplatePipe.transform`: `null` (here `none`) for a nil template;
a missing or invalid matcher falls back to the default double-curly-brace
matcher; otherwise a single global replacement pass over the template. -/
def TemplatePipe.transform (template : Option String) (vars : List (String × JItem))
    (regex : Option DelimPattern) : Option String :=
  match template with
  | none => none
  | some t =>
    let p := match regex with
      | some r => r
      | none => defaultPattern
    some (String.mk (scanRepl p.openD p.closeD (resolveKey vars) t.data))

/-- A literal or variable-name fragment that interacts with no delimiter:
none of its characters occurs in either delimiter or is a newline. -/
def charsSafe (p : DelimPattern) (l : Chars) : Prop :=
  ∀ ch ∈ l, ch ∉ p.openD ∧ ch ∉ p.closeD ∧ ch ≠ '\n'

instance (p : DelimPattern) (l : Chars) : Decidable (charsSafe p l) := by
  unfold charsSafe; infer_instance

/-- A template in segmented normal form: each segment contributes a
literal fragment followed by one placeholder, and a final literal closes
the template. -/
def render (p : DelimPattern) (segs : List (Chars × Chars)) (fin : Chars) : Chars :=
  segs.foldr (fun ln acc => ln.1 ++ p.openD ++ ln.2 ++ p.closeD ++ acc) fin

/-- The pair version of the sum reduction, which records the sequence of
elements handed to the callback alongside the accumulator; this is the
state-passing reading of `value.reduce`, whose callback only reads. -/
def SumPipe.transformSt (value : Input) (g : GetterArg) : JItem × Input :=
  match value with
  | .notArr v => (.prim .null, .notArr v)
  | .arr xs =>
    let st := xs.foldl
      (fun st item => (jsAdd st.1 (extractVal g item), st.2 ++ [item]))
      ((.prim (.num 0) : JItem), ([] : List JItem))
    (st.1, .arr st.2)

/-- State-passing reading of the mean reduction; see
`SumPipe.transformSt`. -/
def MeanPipe.transformSt (value : Input) (g : GetterArg) : JItem × Input :=
  match value with
  | .notArr v => (.prim .null, .notArr v)
  | .arr xs =>
    if xs.length = 0 then (.prim .null, .arr xs)
    else
      let st := xs.foldl
        (fun st item => (jsAdd st.1 (extractVal g item), st.2 ++ [item]))
        ((.prim (.num 0) : JItem), ([] : List JItem))
      (jsDiv st.1 (.prim (.num (xs.length : ℚ))), .arr st.2)

/-- State-passing reading of the max reduction; see
`SumPipe.transformSt`. -/
def MaxPipe.transformSt (value : Input) (g : GetterArg) : JItem × Input :=
  match value with
  | .notArr v => (.prim .null, .notArr v)
  | .arr [] => (.prim .null, .arr [])
  | .arr (x :: rest) =>
    let st := rest.foldl
      (fun st b => ((if jsGe (extractVal g st.1) (extractVal g b) then st.1 else b),
        st.2 ++ [b]))
      (x, ([x] : List JItem))
    (st.1, .arr st.2)

/-- State-passing reading of the min reduction; see
`SumPipe.transformSt`. -/
def MinPipe.transformSt (value : Input) (g : GetterArg) : JItem × Input :=
  match value with
  | .notArr v => (.prim .null, .notArr v)
  | .arr [] => (.prim .null, .arr [])
  | .arr (x :: rest) =>
    let st := rest.foldl
      (fun st b => ((if jsLe (extractVal g st.1) (extractVal g b) then st.1 else b),
        st.2 ++ [b]))
      (x, ([x] : List JItem))
    (st.1, .arr st.2)

/-- State-passing reading of the group-by reduction; see
`SumPipe.transformSt`. -/
def GroupByPipe.transformSt (value : Input) (groupKey : String) :
    Option (List (String × List JItem)) × Input :=
  match value with
  | .notArr v => (none, .notArr v)
  | .arr xs =>
    let st := xs.foldl
      (fun st item => (groupStep groupKey st.1 item, st.2 ++ [item]))
      (([] : List (String × List JItem)), ([] : List JItem))
    (some st.1, .arr st.2)

/-- Addition of two numeric values is exact rational addition. -/
theorem jsAdd_num (a b : ℚ) :
    jsAdd (.prim (.num a)) (.prim (.num b)) = .prim (.num (a + b)) := rfl

/-- Comparison `>=` of two numeric values is the rational comparison. -/
theorem jsGe_num (a b : ℚ) :
    jsGe (.prim (.num a)) (.prim (.num b)) = decide (b ≤ a) := rfl

/-- Comparison `<=` of two numeric values is the rational comparison. -/
theorem jsLe_num (a b : ℚ) :
    jsLe (.prim (.num a)) (.prim (.num b)) = decide (a ≤ b) := rfl

/-- Division of two numeric values is exact rational division when the
divisor is non-zero. -/
theorem jsDiv_num (a b : ℚ) (hb : b ≠ 0) :
    jsDiv (.prim (.num a)) (.prim (.num b)) = .prim (.num (a / b)) := by
  simp [jsDiv, toPrimItem, toNumScalar, hb]

/-- A fold that additionally records every element handed to its callback
computes the plain fold and appends the traversed elements in order: the
reduction passes over the sequence without altering it. -/
theorem foldl_pair_eq {β : Type} (f : β → JItem → β) :
    ∀ (xs : List JItem) (init : β) (pre : List JItem),
      xs.foldl (fun st item => (f st.1 item, st.2 ++ [item])) (init, pre) =
        (xs.foldl f init, pre ++ xs) := by
  intro xs
  induction xs with
  | nil => intro init pre; simp
  | cons x rest ih =>
    intro init pre
    simp only [List.foldl_cons]
    rw [ih]
    simp

/-- Claim C1 (confirmed).  Empty-collection policy: for every optional
selector, `sum([])` is `0` while `mean([])`, `min([])` and `max([])` are
`null`, and `groupBy([], key)` is the empty mapping for every grouping
key; in particular `sum([])` and `mean([])` differ. -/
theorem claim_C1 (g : GetterArg) (k : String) :
    SumPipe.transform (.arr []) g = .prim (.num 0) ∧
    MeanPipe.transform (.arr []) g = .prim .null ∧
    MinPipe.transform (.arr []) g = .prim .null ∧
    MaxPipe.transform (.arr []) g = .prim .null ∧
    GroupByPipe.transform (.arr []) k = some [] ∧
    SumPipe.transform (.arr []) g ≠ MeanPipe.transform (.arr []) g := by
  refine ⟨rfl, rfl, rfl, rfl, rfl, ?_⟩
  simp [SumPipe.transform, MeanPipe.transform]

/-- Claim C3 (confirmed).  Every non-array input (`null`, `undefined`, a
number, a string, an object, ...) makes `sum`, `mean`, `min`, `max` and
`groupBy` return `null`, and a nil template makes the template pipe
return `null`; all the embedded operations are total functions, mirroring
the absence of any throw statement in the source. -/
theorem claim_C3 (v : JItem) (g : GetterArg) (k : String)
    (vars : List (String × JItem)) (p : Option DelimPattern) :
    SumPipe.transform (.notArr v) g = .prim .null ∧
    MeanPipe.transform (.notArr v) g = .prim .null ∧
    MinPipe.transform (.notArr v) g = .prim .null ∧
    MaxPipe.transform (.notArr v) g = .prim .null ∧
    GroupByPipe.transform (.notArr v) k = none ∧
    TemplatePipe.transform none vars p = none :=
  ⟨rfl, rfl, rfl, rfl, rfl, rfl⟩

/-- Claim C8 (confirmed).  Purity: the state-passing reading of every
aggregate reduction returns the input collection unchanged next to the
same result as the pure reading, so a call leaves its input intact and
two calls with the same arguments agree. -/
theorem claim_C8 (v : Input) (g : GetterArg) (k : String) :
    SumPipe.transformSt v g = (SumPipe.transform v g, v) ∧
    MeanPipe.transformSt v g = (MeanPipe.transform v g, v) ∧
    MaxPipe.transformSt v g = (MaxPipe.transform v g, v) ∧
    MinPipe.transformSt v g = (MinPipe.transform v g, v) ∧
    GroupByPipe.transformSt v k = (GroupByPipe.transform v k, v) := by
  refine ⟨?_, ?_, ?_, ?_, ?_⟩
  · cases v with
    | notArr w => rfl
    | arr xs =>
      have h := foldl_pair_eq (fun acc item => jsAdd acc (extractVal g item)) xs
        (.prim (.num 0)) []
      simp only [List.nil_append] at h
      simp [SumPipe.transformSt, SumPipe.transform, h]
  · cases v with
    | notArr w => rfl
    | arr xs =>
      have h := foldl_pair_eq (fun acc item => jsAdd acc (extractVal g item)) xs
        (.prim (.num 0)) []
      simp only [List.nil_append] at h
      by_cases hl : xs.length = 0
      · simp [MeanPipe.transformSt, MeanPipe.transform, hl]
      · simp [MeanPipe.transformSt, MeanPipe.transform, hl, h]
  · cases v with
    | notArr w => rfl
    | arr xs =>
      cases xs with
      | nil => rfl
      | cons x rest =>
        have h := foldl_pair_eq
          (fun a b => if jsGe (extractVal g a) (extractVal g b) then a else b) rest x [x]
        simp only [List.singleton_append] at h
        simp [MaxPipe.transformSt, MaxPipe.transform, h]
  · cases v with
    | notArr w => rfl
    | arr xs =>
      cases xs with
      | nil => rfl
      | cons x rest =>
        have h := foldl_pair_eq
          (fun a b => if jsLe (extractVal g a) (extractVal g b) then a else b) rest x [x]
        simp only [List.singleton_append] at h
        simp [MinPipe.transformSt, MinPipe.transform, h]
  · cases v with
    | notArr w => rfl
    | arr xs =>
      have h := foldl_pair_eq (groupStep k) xs [] []
      simp only [List.nil_append] at h
      simp [GroupByPipe.transformSt, GroupByPipe.transform, h]

/-- The pairwise reduction `reduce((a, b) => test(a, b) ? a : b)` where
`test` decides "the accumulator's value is at least the candidate's"
returns the earliest element whose value is maximal: it is an element of
the list, every value is at most its value, and everything strictly
before it has a strictly smaller value. -/
theorem argFold_first (q : JItem → ℚ) (test : JItem → JItem → Bool) :
    ∀ (l : List JItem) (a : JItem),
      (∀ x ∈ a :: l, ∀ y ∈ a :: l, test x y = decide (q y ≤ q x)) →
      ∃ (i : Nat) (hi : i < (a :: l).length),
        l.foldl (fun u v => if test u v then u else v) a = (a :: l).get ⟨i, hi⟩ ∧
        (∀ z ∈ a :: l, q z ≤ q ((a :: l).get ⟨i, hi⟩)) ∧
        (∀ z ∈ (a :: l).take i, q z < q ((a :: l).get ⟨i, hi⟩)) := by
  intro l
  induction l with
  | nil =>
    intro a _
    refine ⟨0, by simp, rfl, ?_, by simp⟩
    intro z hz
    simp only [List.mem_singleton] at hz
    subst hz
    exact le_refl _
  | cons b t ih =>
    intro a htest
    have hab : test a b = decide (q b ≤ q a) := htest a (by simp) b (by simp)
    rw [List.foldl_cons]
    by_cases hq : q b ≤ q a
    · have hstep : (if test a b then a else b) = a := by rw [hab]; simp [hq]
      rw [hstep]
      have hsub : ∀ x ∈ a :: t, x ∈ a :: b :: t := by
        intro x hx
        simp only [List.mem_cons] at hx ⊢
        tauto
      have htest' : ∀ x ∈ a :: t, ∀ z ∈ a :: t, test x z = decide (q z ≤ q x) :=
        fun x hx z hz => htest x (hsub x hx) z (hsub z hz)
      obtain ⟨i, hi, heq, hmax, hfirst⟩ := ih a htest'
      cases i with
      | zero =>
        have heq2 : t.foldl (fun u v => if test u v then u else v) a = a := heq
        have hmax2 : ∀ z ∈ a :: t, q z ≤ q a := hmax
        refine ⟨0, by simp, heq2, ?_, by simp⟩
        intro z hz
        show q z ≤ q a
        rcases List.mem_cons.mp hz with h | h
        · subst h; exact le_refl _
        · rcases List.mem_cons.mp h with h2 | h2
          · subst h2; exact hq
          · exact hmax2 z (List.mem_cons_of_mem a h2)
      | succ k =>
        have hk : k < t.length := by simpa using hi
        have heq2 : t.foldl (fun u v => if test u v then u else v) a = t.get ⟨k, hk⟩ := heq
        have hmax2 : ∀ z ∈ a :: t, q z ≤ q (t.get ⟨k, hk⟩) := hmax
        have hfirst2 : ∀ z ∈ (a :: t).take (k + 1), q z < q (t.get ⟨k, hk⟩) := hfirst
        have hi2 : k + 2 < (a :: b :: t).length := by simpa using hk
        refine ⟨k + 2, hi2, heq2, ?_, ?_⟩
        · intro z hz
          show q z ≤ q (t.get ⟨k, hk⟩)
          have ha := hmax2 a (List.mem_cons_self a t)
          rcases List.mem_cons.mp hz with h | h
          · subst h; exact ha
          · rcases List.mem_cons.mp h with h2 | h2
            · subst h2; exact le_trans hq ha
            · exact hmax2 z (List.mem_cons_of_mem a h2)
        · intro z hz
          show q z < q (t.get ⟨k, hk⟩)
          have ha : q a < q (t.get ⟨k, hk⟩) :=
            hfirst2 a (by rw [List.take_succ_cons]; exact List.mem_cons_self _ _)
          rw [List.take_succ_cons, List.take_succ_cons] at hz
          rcases List.mem_cons.mp hz with h | h
          · subst h; exact ha
          · rcases List.mem_cons.mp h with h2 | h2
            · subst h2; exact lt_of_le_of_lt hq ha
            · exact hfirst2 z
                (by rw [List.take_succ_cons]; exact List.mem_cons_of_mem a h2)
    · have hq' : q a < q b := not_le.mp hq
      have hstep : (if test a b then a else b) = b := by rw [hab]; simp [hq]
      rw [hstep]
      have hsub : ∀ x ∈ b :: t, x ∈ a :: b :: t := by
        intro x hx
        simp only [List.mem_cons] at hx ⊢
        tauto
      have htest' : ∀ x ∈ b :: t, ∀ z ∈ b :: t, test x z = decide (q z ≤ q x) :=
        fun x hx z hz => htest x (hsub x hx) z (hsub z hz)
      obtain ⟨i, hi, heq, hmax, hfirst⟩ := ih b htest'
      cases i with
      | zero =>
        have heq2 : t.foldl (fun u v => if test u v then u else v) b = b := heq
        have hmax2 : ∀ z ∈ b :: t, q z ≤ q b := hmax
        have hi2 : (1 : Nat) < (a :: b :: t).length := by simp
        refine ⟨1, hi2, heq2, ?_, ?_⟩
        · intro z hz
          show q z ≤ q b
          rcases List.mem_cons.mp hz with h | h
          · subst h; exact le_of_lt hq'
          · rcases List.mem_cons.mp h with h2 | h2
            · subst h2; exact le_refl _
            · exact hmax2 z (List.mem_cons_of_mem b h2)
        · intro z hz
          show q z < q b
          rw [List.take_succ_cons, List.take_zero] at hz
          simp only [List.mem_singleton] at hz
          subst hz
          exact hq'
      | succ k =>
        have hk : k < t.length := by simpa using hi
        have heq2 : t.foldl (fun u v => if test u v then u else v) b = t.get ⟨k, hk⟩ := heq
        have hmax2 : ∀ z ∈ b :: t, q z ≤ q (t.get ⟨k, hk⟩) := hmax
        have hfirst2 : ∀ z ∈ (b :: t).take (k + 1), q z < q (t.get ⟨k, hk⟩) := hfirst
        have hi2 : k + 2 < (a :: b :: t).length := by simpa using hk
        refine ⟨k + 2, hi2, heq2, ?_, ?_⟩
        · intro z hz
          show q z ≤ q (t.get ⟨k, hk⟩)
          have hb := hmax2 b (List.mem_cons_self b t)
          rcases List.mem_cons.mp hz with h | h
          · subst h; exact le_trans (le_of_lt hq') hb
          · rcases List.mem_cons.mp h with h2 | h2
            · subst h2; exact hb
            · exact hmax2 z (List.mem_cons_of_mem b h2)
        · intro z hz
          show q z < q (t.get ⟨k, hk⟩)
          have hb : q b < q (t.get ⟨k, hk⟩) :=
            hfirst2 b (by rw [List.take_succ_cons]; exact List.mem_cons_self _ _)
          rw [List.take_succ_cons, List.take_succ_cons] at hz
          rcases List.mem_cons.mp hz with h | h
          · subst h; exact lt_trans hq' hb
          · rcases List.mem_cons.mp h with h2 | h2
            · subst h2; exact hb
            · exact hfirst2 z
                (by rw [List.take_succ_cons]; exact List.mem_cons_of_mem b h2)

/-- Claim C2 (confirmed).  On a non-empty array whose extracted values are
numeric, `max` returns the original element (an element of the input, at
some index `i`) whose extracted value is maximal, and every element
before index `i` has a strictly smaller value — the first-seen element
wins ties; dually for `min`. -/
theorem claim_C2 (x : JItem) (xs : List JItem) (g : GetterArg) (q : JItem → ℚ)
    (h : ∀ y ∈ x :: xs, extractVal g y = .prim (.num (q y))) :
    (∃ (i : Nat) (hi : i < (x :: xs).length),
      MaxPipe.transform (.arr (x :: xs)) g = (x :: xs).get ⟨i, hi⟩ ∧
      (∀ z ∈ x :: xs, q z ≤ q ((x :: xs).get ⟨i, hi⟩)) ∧
      (∀ z ∈ (x :: xs).take i, q z < q ((x :: xs).get ⟨i, hi⟩))) ∧
    (∃ (j : Nat) (hj : j < (x :: xs).length),
      MinPipe.transform (.arr (x :: xs)) g = (x :: xs).get ⟨j, hj⟩ ∧
      (∀ z ∈ x :: xs, q ((x :: xs).get ⟨j, hj⟩) ≤ q z) ∧
      (∀ z ∈ (x :: xs).take j, q ((x :: xs).get ⟨j, hj⟩) < q z)) := by
  constructor
  · have htest : ∀ u ∈ x :: xs, ∀ v ∈ x :: xs,
        jsGe (extractVal g u) (extractVal g v) = decide (q v ≤ q u) := by
      intro u hu v hv
      rw [h u hu, h v hv]
      exact jsGe_num _ _
    obtain ⟨i, hi, heq, hmax, hfirst⟩ := argFold_first q
      (fun a b => jsGe (extractVal g a) (extractVal g b)) xs x htest
    exact ⟨i, hi, heq, hmax, hfirst⟩
  · have htest : ∀ u ∈ x :: xs, ∀ v ∈ x :: xs,
        jsLe (extractVal g u) (extractVal g v) = decide (-(q v) ≤ -(q u)) := by
      intro u hu v hv
      rw [h u hu, h v hv, jsLe_num]
      exact decide_eq_decide.mpr (by constructor <;> intro h2 <;> linarith)
    obtain ⟨j, hj, heq, hmax, hfirst⟩ := argFold_first (fun z => -(q z))
      (fun a b => jsLe (extractVal g a) (extractVal g b)) xs x htest
    refine ⟨j, hj, heq, ?_, ?_⟩
    · intro z hz
      have hle := hmax z hz
      simpa using hle
    · intro z hz
      have hlt := hfirst z hz
      simpa using hlt

/-- The sum reduction over elements with numeric extracted values is the
exact rational sum of those values, shifted by the initial accumulator. -/
theorem sumFold (g : GetterArg) (q : JItem → ℚ) :
    ∀ (l : List JItem) (a : ℚ),
      (∀ y ∈ l, extractVal g y = .prim (.num (q y))) →
      l.foldl (fun acc item => jsAdd acc (extractVal g item)) (.prim (.num a)) =
        .prim (.num (a + (l.map q).sum)) := by
  intro l
  induction l with
  | nil => intro a _; simp
  | cons y t ih =>
    intro a h
    rw [List.foldl_cons, h y (by simp), jsAdd_num]
    rw [ih (a + q y) (fun z hz => h z (by simp [hz]))]
    simp [add_assoc]

/-- Claim C7 (confirmed).  On a non-empty array with numeric extracted
values, the sum is exactly the mean multiplied by the length, in exact
rational arithmetic. -/
theorem claim_C7 (x : JItem) (xs : List JItem) (g : GetterArg) (q : JItem → ℚ)
    (h : ∀ y ∈ x :: xs, extractVal g y = .prim (.num (q y))) :
    ∃ t : ℚ,
      SumPipe.transform (.arr (x :: xs)) g = .prim (.num t) ∧
      MeanPipe.transform (.arr (x :: xs)) g =
        .prim (.num (t / ((x :: xs).length : ℚ))) ∧
      t = t / ((x :: xs).length : ℚ) * ((x :: xs).length : ℚ) := by
  have hs := sumFold g q (x :: xs) 0 h
  simp only [zero_add] at hs
  have hlen : (((x :: xs).length : ℚ)) ≠ 0 :=
    Nat.cast_ne_zero.mpr (Nat.succ_ne_zero xs.length)
  refine ⟨((x :: xs).map q).sum, hs, ?_, (div_mul_cancel₀ _ hlen).symm⟩
  have hne : ¬(x :: xs).length = 0 := by simp
  simp only [MeanPipe.transform, if_neg hne]
  rw [hs, jsDiv_num _ _ hlen]

/-- Witness for claim C2 at the spec's example `[{a:3},{a:9},{a:3}]` with
property selector `a`: the numeric-extraction hypothesis holds and the
first-max/first-min characterisation follows by the theorem. -/
theorem claim_C2_witness :
    (∀ y ∈ [JItem.obj [("a", JScalar.num 3)], JItem.obj [("a", JScalar.num 9)],
        JItem.obj [("a", JScalar.num 3)]],
      extractVal (.other (.prim (.str "a"))) y =
        .prim (.num (qOf (extractVal (.other (.prim (.str "a"))) y)))) ∧
    ((∃ (i : Nat) (hi : i < ([JItem.obj [("a", JScalar.num 3)],
        JItem.obj [("a", JScalar.num 9)], JItem.obj [("a", JScalar.num 3)]] :
          List JItem).length),
      MaxPipe.transform
          (.arr [JItem.obj [("a", JScalar.num 3)], JItem.obj [("a", JScalar.num 9)],
            JItem.obj [("a", JScalar.num 3)]]) (.other (.prim (.str "a"))) =
        [JItem.obj [("a", JScalar.num 3)], JItem.obj [("a", JScalar.num 9)],
          JItem.obj [("a", JScalar.num 3)]].get ⟨i, hi⟩ ∧
      (∀ z ∈ [JItem.obj [("a", JScalar.num 3)], JItem.obj [("a", JScalar.num 9)],
          JItem.obj [("a", JScalar.num 3)]],
        qOf (extractVal (.other (.prim (.str "a"))) z) ≤
          qOf (extractVal (.other (.prim (.str "a")))
            ([JItem.obj [("a", JScalar.num 3)], JItem.obj [("a", JScalar.num 9)],
              JItem.obj [("a", JScalar.num 3)]].get ⟨i, hi⟩))) ∧
      (∀ z ∈ ([JItem.obj [("a", JScalar.num 3)], JItem.obj [("a", JScalar.num 9)],
          JItem.obj [("a", JScalar.num 3)]] : List JItem).take i,
        qOf (extractVal (.other (.prim (.str "a"))) z) <
          qOf (extractVal (.other (.prim (.str "a")))
            ([JItem.obj [("a", JScalar.num 3)], JItem.obj [("a", JScalar.num 9)],
              JItem.obj [("a", JScalar.num 3)]].get ⟨i, hi⟩)))) ∧
    (∃ (j : Nat) (hj : j < ([JItem.obj [("a", JScalar.num 3)],
        JItem.obj [("a", JScalar.num 9)], JItem.obj [("a", JScalar.num 3)]] :
          List JItem).length),
      MinPipe.transform
          (.arr [JItem.obj [("a", JScalar.num 3)], JItem.obj [("a", JScalar.num 9)],
            JItem.obj [("a", JScalar.num 3)]]) (.other (.prim (.str "a"))) =
        [JItem.obj [("a", JScalar.num 3)], JItem.obj [("a", JScalar.num 9)],
          JItem.obj [("a", JScalar.num 3)]].get ⟨j, hj⟩ ∧
      (∀ z ∈ [JItem.obj [("a", JScalar.num 3)], JItem.obj [("a", JScalar.num 9)],
          JItem.obj [("a", JScalar.num 3)]],
        qOf (extractVal (.other (.prim (.str "a")))
            ([JItem.obj [("a", JScalar.num 3)], JItem.obj [("a", JScalar.num 9)],
              JItem.obj [("a", JScalar.num 3)]].get ⟨j, hj⟩)) ≤
          qOf (extractVal (.other (.prim (.str "a"))) z)) ∧
      (∀ z ∈ ([JItem.obj [("a", JScalar.num 3)], JItem.obj [("a", JScalar.num 9)],
          JItem.obj [("a", JScalar.num 3)]] : List JItem).take j,
        qOf (extractVal (.other (.prim (.str "a")))
            ([JItem.obj [("a", JScalar.num 3)], JItem.obj [("a", JScalar.num 9)],
              JItem.obj [("a", JScalar.num 3)]].get ⟨j, hj⟩)) <
          qOf (extractVal (.other (.prim (.str "a"))) z)))) :=
  ⟨by decide,
    claim_C2 (JItem.obj [("a", JScalar.num 3)])
      [JItem.obj [("a", JScalar.num 9)], JItem.obj [("a", JScalar.num 3)]]
      (.other (.prim (.str "a")))
      (fun y => qOf (extractVal (.other (.prim (.str "a"))) y)) (by decide)⟩

/-- Witness for claim C7 at the primitive array `[1, 2, 4]` with the
selector omitted. -/
theorem claim_C7_witness :
    (∀ y ∈ [JItem.prim (JScalar.num 1), JItem.prim (JScalar.num 2),
        JItem.prim (JScalar.num 4)],
      extractVal .undefined y = .prim (.num (qOf y))) ∧
    (∃ t : ℚ,
      SumPipe.transform
          (.arr [JItem.prim (JScalar.num 1), JItem.prim (JScalar.num 2),
            JItem.prim (JScalar.num 4)]) .undefined = .prim (.num t) ∧
      MeanPipe.transform
          (.arr [JItem.prim (JScalar.num 1), JItem.prim (JScalar.num 2),
            JItem.prim (JScalar.num 4)]) .undefined =
        .prim (.num (t / (([JItem.prim (JScalar.num 1), JItem.prim (JScalar.num 2),
          JItem.prim (JScalar.num 4)] : List JItem).length : ℚ))) ∧
      t = t / (([JItem.prim (JScalar.num 1), JItem.prim (JScalar.num 2),
          JItem.prim (JScalar.num 4)] : List JItem).length : ℚ) *
        (([JItem.prim (JScalar.num 1), JItem.prim (JScalar.num 2),
          JItem.prim (JScalar.num 4)] : List JItem).length : ℚ)) :=
  ⟨by decide,
    claim_C7 (JItem.prim (JScalar.num 1))
      [JItem.prim (JScalar.num 2), JItem.prim (JScalar.num 4)] .undefined qOf (by decide)⟩

/-- Counterexample for claim C9.  A boolean selector — a selector of a
type outside the documented contract — does not make the aggregates fail:
each of them silently coerces it to the property key `"true"` and returns
a normal result, so no error is raised. -/
theorem claim_C9_cex :
    SumPipe.transform (.arr [JItem.obj [("true", JScalar.num 7)]])
      (.other (.prim (.bool true))) = .prim (.num 7) ∧
    MeanPipe.transform (.arr [JItem.obj [("true", JScalar.num 7)]])
      (.other (.prim (.bool true))) = .prim (.num 7) ∧
    MaxPipe.transform (.arr [JItem.obj [("true", JScalar.num 7)]])
      (.other (.prim (.bool true))) = .obj [("true", JScalar.num 7)] ∧
    MinPipe.transform (.arr [JItem.obj [("true", JScalar.num 7)]])
      (.other (.prim (.bool true))) = .obj [("true", JScalar.num 7)] := by
  refine ⟨?_, ?_, rfl, rfl⟩
  · simp [SumPipe.transform, extractVal, jsToString, jsToStringScalar, getProp,
      jsAdd, toPrimItem, toNumScalar]
  · simp [MeanPipe.transform, extractVal, jsToString, jsToStringScalar, getProp,
      jsAdd, jsDiv, toPrimItem, toNumScalar]

/-- Claim C9 (amended).  A selector argument that is neither omitted nor a
function is never rejected: every aggregate treats it exactly like the
string property key obtained from its default string conversion — silent
coercion, not a thrown error. -/
theorem claim_C9 (v : Input) (k : JItem) :
    SumPipe.transform v (.other k) =
      SumPipe.transform v (.other (.prim (.str (jsToString k)))) ∧
    MeanPipe.transform v (.other k) =
      MeanPipe.transform v (.other (.prim (.str (jsToString k)))) ∧
    MaxPipe.transform v (.other k) =
      MaxPipe.transform v (.other (.prim (.str (jsToString k)))) ∧
    MinPipe.transform v (.other k) =
      MinPipe.transform v (.other (.prim (.str (jsToString k)))) := by
  have hfun : extractVal (.other k) = extractVal (.other (.prim (.str (jsToString k)))) := by
    funext w
    simp [extractVal, jsToString, jsToStringScalar]
  refine ⟨?_, ?_, ?_, ?_⟩
  · cases v with
    | notArr w => rfl
    | arr xs => simp only [SumPipe.transform, hfun]
  · cases v with
    | notArr w => rfl
    | arr xs => simp only [MeanPipe.transform, hfun]
  · cases v with
    | notArr w => rfl
    | arr xs =>
      cases xs with
      | nil => rfl
      | cons x rest => simp only [MaxPipe.transform, hfun]
  · cases v with
    | notArr w => rfl
    | arr xs =>
      cases xs with
      | nil => rfl
      | cons x rest => simp only [MinPipe.transform, hfun]

/-- Lookup in a concatenation tries the left part first. -/
theorem assocFind_append {α : Type} (l₁ l₂ : List (String × α)) (s : String) :
    assocFind (l₁ ++ l₂) s =
      match assocFind l₁ s with
      | some g => some g
      | none => assocFind l₂ s := by
  induction l₁ with
  | nil => simp [assocFind]
  | cons p rest ih =>
    obtain ⟨k, v⟩ := p
    by_cases h : k = s
    · simp [assocFind, h]
    · simp [assocFind, h, ih]

/-- Replacing the value under a present key changes lookups of that key
only. -/
theorem assocFind_assocSet {α : Type} (l : List (String × α)) (key : String) (v g : α)
    (hf : assocFind l key = some g) (s : String) :
    assocFind (assocSet l key v) s = if s = key then some v else assocFind l s := by
  induction l with
  | nil => simp [assocFind] at hf
  | cons p rest ih =>
    obtain ⟨k, w⟩ := p
    by_cases hk : k = key
    · subst hk
      by_cases hs : k = s
      · subst hs
        simp [assocSet, assocFind]
      · have hs2 : ¬s = k := fun h => hs h.symm
        simp [assocSet, assocFind, hs, hs2]
    · have hf2 : assocFind rest key = some g := by
        simpa [assocFind, hk] using hf
      by_cases hs : k = s
      · subst hs
        simp [assocSet, assocFind, hk]
      · simp [assocSet, assocFind, hk, hs, ih hf2]

/-- One group-by step extends (or creates) precisely the group of the
processed element's stringified key, appending the element at the end. -/
theorem groupStep_find (gk : String) (acc : List (String × List JItem)) (x : JItem)
    (s : String) :
    assocFind (groupStep gk acc x) s =
      if keyStr gk x = s then some ((assocFind acc s).getD [] ++ [x])
      else assocFind acc s := by
  unfold groupStep
  show assocFind (match assocFind acc (keyStr gk x) with
    | none => acc ++ [(keyStr gk x, [x])]
    | some g => assocSet acc (keyStr gk x) (g ++ [x])) s = _
  cases hf : assocFind acc (keyStr gk x) with
  | none =>
    rw [assocFind_append]
    by_cases hks : keyStr gk x = s
    · subst hks
      rw [hf]
      simp [assocFind]
    · have hfind : assocFind [(keyStr gk x, [x])] s = none := by
        simp [assocFind, hks]
      rw [if_neg hks, hfind]
      cases assocFind acc s <;> rfl
  | some g =>
    rw [assocFind_assocSet acc _ _ g hf]
    by_cases hks : keyStr gk x = s
    · subst hks
      rw [hf]
      simp
    · rw [if_neg hks, if_neg (fun h => hks h.symm)]

/-- The lookup of any string in the group-by reduction: groups already in
the accumulator are extended by the matching elements in order, and new
groups are exactly the non-empty ordered filters of the traversed list. -/
theorem groupFold_find (gk : String) :
    ∀ (xs : List JItem) (acc : List (String × List JItem)) (s : String),
      assocFind (xs.foldl (groupStep gk) acc) s =
        match assocFind acc s with
        | some g => some (g ++ filterKey gk s xs)
        | none =>
          if filterKey gk s xs = [] then none else some (filterKey gk s xs) := by
  intro xs
  induction xs with
  | nil =>
    intro acc s
    simp only [List.foldl_nil]
    cases h : assocFind acc s <;> simp [filterKey, h]
  | cons x t ih =>
    intro acc s
    rw [List.foldl_cons, ih, groupStep_find]
    by_cases hks : keyStr gk x = s
    · have hfilter : filterKey gk s (x :: t) = x :: filterKey gk s t := by
        simp [filterKey, List.filter_cons, hks]
      rw [if_pos hks, hfilter]
      cases hacc : assocFind acc s with
      | none => simp
      | some g => simp
    · have hfilter : filterKey gk s (x :: t) = filterKey gk s t := by
        simp [filterKey, List.filter_cons, hks]
      rw [if_neg hks, hfilter]

/-- Claim C5 (confirmed).  `groupBy` maps each distinct key, under its
default string representation, to exactly the ordered sub-sequence of the
input elements carrying that key (stable grouping): the group stored
under any string `s` is the filter of the input by stringified key `s`,
every element is found in the group of its own stringified key, and the
stringification has the canonical forms `true`, `false`, `undefined`,
`null` and decimal integers. -/
theorem claim_C5 (xs : List JItem) (gk : String) :
    ∃ m, GroupByPipe.transform (.arr xs) gk = some m ∧
      (∀ s, assocFind m s =
        if filterKey gk s xs = [] then none else some (filterKey gk s xs)) ∧
      (∀ x ∈ xs, ∃ g, assocFind m (keyStr gk x) = some g ∧ x ∈ g) ∧
      jsToStringScalar (.bool true) = "true" ∧
      jsToStringScalar (.bool false) = "false" ∧
      jsToStringScalar .undefined = "undefined" ∧
      jsToStringScalar .null = "null" ∧
      (∀ n : ℤ, jsToStringScalar (.num (n : ℚ)) = toString n) := by
  refine ⟨xs.foldl (groupStep gk) [], rfl, ?_, ?_, rfl, rfl, rfl, rfl, ?_⟩
  · intro s
    have h := groupFold_find gk xs [] s
    simpa [assocFind] using h
  · intro x hx
    have h := groupFold_find gk xs [] (keyStr gk x)
    have hmem : x ∈ filterKey gk (keyStr gk x) xs := by
      simp [filterKey, List.mem_filter, hx]
    have hne : ¬filterKey gk (keyStr gk x) xs = [] := by
      intro hc
      rw [hc] at hmem
      simp at hmem
    refine ⟨filterKey gk (keyStr gk x) xs, ?_, hmem⟩
    simpa [assocFind, hne] using h
  · intro n
    simp [jsToStringScalar, ratToString, Rat.den_intCast, Rat.num_intCast]

/-- Claim C10 (confirmed).  Group membership is decided by the string
representation of the key: two elements whose raw key values differ but
stringify identically land in the same group, stored under that shared
string. -/
theorem claim_C10 (xs : List JItem) (gk : String) (x₁ x₂ : JItem)
    (h₁ : x₁ ∈ xs) (h₂ : x₂ ∈ xs)
    (hraw : getProp x₁ gk ≠ getProp x₂ gk)
    (hstr : keyStr gk x₁ = keyStr gk x₂) :
    ∃ m g, GroupByPipe.transform (.arr xs) gk = some m ∧
      assocFind m (keyStr gk x₁) = some g ∧ x₁ ∈ g ∧ x₂ ∈ g := by
  have hmem : x₁ ∈ filterKey gk (keyStr gk x₁) xs := by
    simp [filterKey, List.mem_filter, h₁]
  have hne : ¬filterKey gk (keyStr gk x₁) xs = [] := by
    intro hc
    rw [hc] at hmem
    simp at hmem
  refine ⟨xs.foldl (groupStep gk) [], filterKey gk (keyStr gk x₁) xs, rfl, ?_, hmem, ?_⟩
  · have h := groupFold_find gk xs [] (keyStr gk x₁)
    simpa [assocFind, hne] using h
  · simp [filterKey, List.mem_filter, h₂, hstr]

/-- Witness for claim C10: the number `1` and the string `"1"` have
different raw key values but the same string representation, and land in
the same group. -/
theorem claim_C10_witness :
    (JItem.obj [("k", JScalar.num 1)] ∈
      [JItem.obj [("k", JScalar.num 1)], JItem.obj [("k", JScalar.str "1")]]) ∧
    (JItem.obj [("k", JScalar.str "1")] ∈
      [JItem.obj [("k", JScalar.num 1)], JItem.obj [("k", JScalar.str "1")]]) ∧
    getProp (JItem.obj [("k", JScalar.num 1)]) "k" ≠
      getProp (JItem.obj [("k", JScalar.str "1")]) "k" ∧
    keyStr "k" (JItem.obj [("k", JScalar.num 1)]) =
      keyStr "k" (JItem.obj [("k", JScalar.str "1")]) ∧
    (∃ m g,
      GroupByPipe.transform
          (.arr [JItem.obj [("k", JScalar.num 1)], JItem.obj [("k", JScalar.str "1")]])
          "k" = some m ∧
      assocFind m (keyStr "k" (JItem.obj [("k", JScalar.num 1)])) = some g ∧
      JItem.obj [("k", JScalar.num 1)] ∈ g ∧ JItem.obj [("k", JScalar.str "1")] ∈ g) :=
  ⟨by decide, by decide, by decide, by decide,
    claim_C10 [JItem.obj [("k", JScalar.num 1)], JItem.obj [("k", JScalar.str "1")]] "k"
      (JItem.obj [("k", JScalar.num 1)]) (JItem.obj [("k", JScalar.str "1")])
      (by decide) (by decide) (by decide) (by decide)⟩

/-- A list is a Boolean prefix of itself followed by anything. -/
theorem isPrefixOf_append_self (l t : List Char) : l.isPrefixOf (l ++ t) = true := by
  induction l with
  | nil => simp
  | cons ch cs ih => simp [List.isPrefixOf_cons₂, ih]

/-- A prefix test fails when the head characters differ. -/
theorem isPrefixOf_cons_ne (a b : Char) (as bs : List Char) (h : ¬a = b) :
    (a :: as).isPrefixOf (b :: bs) = false := by
  simp [List.isPrefixOf, h]

/-- The remainder returned by a successful lazy close search is strictly
shorter than the searched string. -/
theorem findClose_length (closeD : Chars) :
    ∀ (s content after : Chars), findClose closeD s = some (content, after) →
      after.length < s.length := by
  intro s
  induction s with
  | nil =>
    intro content after h
    simp [findClose] at h
  | cons ch rest ih =>
    intro content after h
    by_cases hn : ch = '\n'
    · simp [findClose, hn] at h
    · by_cases hp : closeD.isPrefixOf rest
      · simp [findClose, hn, hp] at h
        have hd := List.length_drop closeD.length rest
        obtain ⟨h1, h2⟩ := h
        rw [← h2, hd]
        simp
        omega
      · cases hrec : findClose closeD rest with
        | none => simp [findClose, hn, hp, hrec] at h
        | some p =>
          obtain ⟨content2, after2⟩ := p
          have hlt := ih content2 after2 hrec
          simp [findClose, hn, hp, hrec] at h
          obtain ⟨h1, h2⟩ := h
          rw [← h2]
          simp
          omega

/-- The lazy close search finds exactly the name when the name is
non-empty and none of its characters is a newline or occurs in the
(non-empty) close delimiter. -/
theorem findClose_exact (closeD : Chars) (hc : closeD ≠ []) :
    ∀ (name rest : Chars), name ≠ [] →
      (∀ ch ∈ name, ch ≠ '\n' ∧ ch ∉ closeD) →
      findClose closeD (name ++ (closeD ++ rest)) = some (name, rest) := by
  intro name
  induction name with
  | nil => intro rest h _; exact absurd rfl h
  | cons a as ih =>
    intro rest _ hsafe
    have ha := hsafe a (by simp)
    cases as with
    | nil =>
      show findClose closeD (a :: (closeD ++ rest)) = some ([a], rest)
      simp [findClose, ha.1, isPrefixOf_append_self, List.drop_left]
    | cons b bs =>
      have hb := hsafe b (by simp)
      have hne : closeD.isPrefixOf ((b :: bs) ++ (closeD ++ rest)) = false := by
        obtain ⟨c0, cs, hcd⟩ : ∃ c0 cs, closeD = c0 :: cs := by
          cases closeD with
          | nil => exact absurd rfl hc
          | cons c0 cs => exact ⟨c0, cs, rfl⟩
        rw [List.cons_append, hcd]
        refine isPrefixOf_cons_ne c0 b cs _ (fun h => hb.2 ?_)
        rw [hcd, ← h]
        exact List.mem_cons_self c0 cs
      have hih := ih rest (by simp) (fun ch hch => hsafe ch (by simp [hch]))
      show findClose closeD (a :: ((b :: bs) ++ (closeD ++ rest))) = _
      rw [findClose.eq_def]
      simp only [hne, Bool.false_eq_true, if_false, if_neg (show ¬a = '\n' from ha.1), hih]

/-- One scanning step when the matcher succeeds at the current position. -/
theorem scanAux_cons_pos (o c : Chars) (res : Chars → Chars → Chars) (fuel : Nat)
    (ch : Char) (rest content after : Chars)
    (hp : o.isPrefixOf (ch :: rest) = true)
    (hfc : findClose c ((ch :: rest).drop o.length) = some (content, after)) :
    scanAux o c res (fuel + 1) (ch :: rest) =
      res content (o ++ content ++ c) ++ scanAux o c res fuel after := by
  simp only [scanAux, hp, if_true, hfc]

/-- One scanning step when the open delimiter matches but no close
follows. -/
theorem scanAux_cons_none (o c : Chars) (res : Chars → Chars → Chars) (fuel : Nat)
    (ch : Char) (rest : Chars)
    (hp : o.isPrefixOf (ch :: rest) = true)
    (hfc : findClose c ((ch :: rest).drop o.length) = none) :
    scanAux o c res (fuel + 1) (ch :: rest) = ch :: scanAux o c res fuel rest := by
  simp only [scanAux, hp, if_true, hfc]

/-- One scanning step when the open delimiter does not match. -/
theorem scanAux_cons_neg (o c : Chars) (res : Chars → Chars → Chars) (fuel : Nat)
    (ch : Char) (rest : Chars)
    (hp : o.isPrefixOf (ch :: rest) = false) :
    scanAux o c res (fuel + 1) (ch :: rest) = ch :: scanAux o c res fuel rest := by
  simp only [scanAux, hp, Bool.false_eq_true, if_false]

/-- The scan does not depend on the fuel, as long as the fuel is at least
the input length. -/
theorem scanAux_irrel (o c : Chars) (res : Chars → Chars → Chars) :
    ∀ (fuel₁ : Nat) (s : Chars) (fuel₂ : Nat),
      s.length ≤ fuel₁ → s.length ≤ fuel₂ →
      scanAux o c res fuel₁ s = scanAux o c res fuel₂ s := by
  intro fuel₁
  induction fuel₁ with
  | zero =>
    intro s fuel₂ h1 _
    have hs : s = [] := List.length_eq_zero.mp (Nat.le_zero.mp h1)
    subst hs
    cases fuel₂ <;> rfl
  | succ f ih =>
    intro s fuel₂ h1 h2
    cases s with
    | nil => cases fuel₂ <;> rfl
    | cons ch rest =>
      cases fuel₂ with
      | zero => simp at h2
      | succ f2 =>
        have h1a : rest.length ≤ f := by simpa using h1
        have h2a : rest.length ≤ f2 := by simpa using h2
        by_cases hp : o.isPrefixOf (ch :: rest) = true
        · cases hfc : findClose c ((ch :: rest).drop o.length) with
          | none =>
            rw [scanAux_cons_none o c res f ch rest hp hfc,
              scanAux_cons_none o c res f2 ch rest hp hfc,
              ih rest f2 h1a h2a]
          | some p =>
            obtain ⟨content, after⟩ := p
            have hlt := findClose_length c _ content after hfc
            have hdl : ((ch :: rest).drop o.length).length ≤ rest.length + 1 := by
              rw [List.length_drop]
              simp only [List.length_cons]
              omega
            have hle : after.length ≤ rest.length := by omega
            rw [scanAux_cons_pos o c res f ch rest content after hp hfc,
              scanAux_cons_pos o c res f2 ch rest content after hp hfc,
              ih after f2 (le_trans hle h1a) (le_trans hle h2a)]
        · have hp2 : o.isPrefixOf (ch :: rest) = false := by
            cases h0 : o.isPrefixOf (ch :: rest) with
            | false => rfl
            | true => exact absurd h0 hp
          rw [scanAux_cons_neg o c res f ch rest hp2,
            scanAux_cons_neg o c res f2 ch rest hp2,
            ih rest f2 h1a h2a]

/-- A character outside the open delimiter is emitted verbatim. -/
theorem scanRepl_cons_safe (o c : Chars) (res : Chars → Chars → Chars) (ch : Char)
    (rest : Chars) (ho : o ≠ []) (hch : ch ∉ o) :
    scanRepl o c res (ch :: rest) = ch :: scanRepl o c res rest := by
  have hp : o.isPrefixOf (ch :: rest) = false := by
    obtain ⟨o0, os, ho2⟩ : ∃ o0 os, o = o0 :: os := by
      cases o with
      | nil => exact absurd rfl ho
      | cons o0 os => exact ⟨o0, os, rfl⟩
    rw [ho2]
    refine isPrefixOf_cons_ne o0 ch os rest (fun h => hch ?_)
    rw [ho2, ← h]
    exact List.mem_cons_self o0 os
  show scanAux o c res (rest.length + 1) (ch :: rest) = _
  rw [scanAux_cons_neg o c res rest.length ch rest hp]
  rfl

/-- A well-delimited placeholder at the head of the input is replaced by
the callback output and scanning continues after it. -/
theorem scanRepl_match (o c : Chars) (res : Chars → Chars → Chars) (name rest : Chars)
    (ho : o ≠ []) (hc : c ≠ []) (hname : name ≠ [])
    (hsafe : ∀ ch ∈ name, ch ≠ '\n' ∧ ch ∉ c) :
    scanRepl o c res (o ++ (name ++ (c ++ rest))) =
      res name (o ++ name ++ c) ++ scanRepl o c res rest := by
  obtain ⟨o0, os, ho2⟩ : ∃ o0 os, o = o0 :: os := by
    cases o with
    | nil => exact absurd rfl ho
    | cons o0 os => exact ⟨o0, os, rfl⟩
  subst ho2
  have hp : (o0 :: os).isPrefixOf ((o0 :: os) ++ (name ++ (c ++ rest))) = true :=
    isPrefixOf_append_self _ _
  have hfc : findClose c ((((o0 :: os) ++ (name ++ (c ++ rest)))).drop
      (o0 :: os).length) = some (name, rest) := by
    rw [List.drop_left]
    exact findClose_exact c hc name rest hname hsafe
  show scanAux (o0 :: os) c res ((o0 :: os) ++ (name ++ (c ++ rest))).length
      ((o0 :: os) ++ (name ++ (c ++ rest))) = _
  have hlist : (o0 :: os) ++ (name ++ (c ++ rest)) =
      o0 :: (os ++ (name ++ (c ++ rest))) := rfl
  rw [hlist, List.length_cons]
  rw [scanAux_cons_pos (o0 :: os) c res (os ++ (name ++ (c ++ rest))).length o0
    (os ++ (name ++ (c ++ rest))) name rest hp hfc]
  congr 1
  exact scanAux_irrel (o0 :: os) c res (os ++ (name ++ (c ++ rest))).length rest
    rest.length (by simp [List.length_append]; omega) (le_refl _)

/-- A literal made of characters outside the open delimiter is copied
verbatim by the scan. -/
theorem scanRepl_append_safe (o c : Chars) (res : Chars → Chars → Chars) :
    ∀ (lit s : Chars), o ≠ [] → (∀ ch ∈ lit, ch ∉ o) →
      scanRepl o c res (lit ++ s) = lit ++ scanRepl o c res s := by
  intro lit
  induction lit with
  | nil => intro s _ _; simp
  | cons ch rest ih =>
    intro s ho hlit
    have h1 : scanRepl o c res (ch :: (rest ++ s)) = ch :: scanRepl o c res (rest ++ s) :=
      scanRepl_cons_safe o c res ch (rest ++ s) ho (hlit ch (by simp))
    rw [List.cons_append, h1, ih s ho (fun z hz => hlit z (by simp [hz]))]
    rfl

/-- Replacement over a template in segmented normal form replaces every
placeholder occurrence, left to right, independently of the others. -/
theorem scanRepl_segs (o c : Chars) (res : Chars → Chars → Chars)
    (ho : o ≠ []) (hc : c ≠ []) :
    ∀ (segs : List (Chars × Chars)) (fin : Chars),
      (∀ ln ∈ segs, charsSafe ⟨o, c⟩ ln.1 ∧ charsSafe ⟨o, c⟩ ln.2 ∧ ln.2 ≠ []) →
      charsSafe ⟨o, c⟩ fin →
      scanRepl o c res (render ⟨o, c⟩ segs fin) =
        segs.foldr (fun ln acc => ln.1 ++ res ln.2 (o ++ ln.2 ++ c) ++ acc) fin := by
  intro segs
  induction segs with
  | nil =>
    intro fin _ hfin
    have h := scanRepl_append_safe o c res fin [] ho (fun z hz => (hfin z hz).1)
    rw [List.append_nil] at h
    rw [show render ⟨o, c⟩ [] fin = fin from rfl, h,
      show scanRepl o c res [] = [] from rfl, List.append_nil]
    rfl
  | cons ln t ih =>
    intro fin hsegs hfin
    obtain ⟨l, n⟩ := ln
    have hl := (hsegs (l, n) (by simp)).1
    have hn := (hsegs (l, n) (by simp)).2.1
    have hne := (hsegs (l, n) (by simp)).2.2
    have hrender : render ⟨o, c⟩ ((l, n) :: t) fin =
        l ++ (o ++ (n ++ (c ++ render ⟨o, c⟩ t fin))) := by
      simp [render, List.append_assoc]
    rw [hrender]
    rw [scanRepl_append_safe o c res l (o ++ (n ++ (c ++ render ⟨o, c⟩ t fin))) ho
      (fun z hz => (hl z hz).1)]
    rw [scanRepl_match o c res n (render ⟨o, c⟩ t fin) ho hc hne
      (fun z hz => ⟨(hn z hz).2.2, (hn z hz).2.1⟩)]
    rw [ih fin (fun p hp => hsegs p (by simp [hp])) hfin]
    simp [List.append_assoc]

/-- The template pipe on a segmented template with any accepted matcher:
each placeholder is independently resolved by the replacement callback,
all occurrences in one left-to-right pass. -/
theorem transform_render (p : DelimPattern) (vars : List (String × JItem))
    (hpo : p.openD ≠ []) (hpc : p.closeD ≠ [])
    (segs : List (Chars × Chars)) (fin : Chars)
    (hsegs : ∀ ln ∈ segs, charsSafe p ln.1 ∧ charsSafe p ln.2 ∧ ln.2 ≠ [])
    (hfin : charsSafe p fin) :
    TemplatePipe.transform (some (String.mk (render p segs fin))) vars (some p) =
      some (String.mk (segs.foldr
        (fun ln acc =>
          ln.1 ++ resolveKey vars ln.2 (p.openD ++ ln.2 ++ p.closeD) ++ acc)
        fin)) := by
  have h := scanRepl_segs p.openD p.closeD (resolveKey vars) hpo hpc segs fin hsegs hfin
  exact congrArg (fun l => some (String.mk l)) h

/-- Claim C4 (confirmed).  Placeholder resolution rule of the template
pipe under the default matcher, over templates in segmented normal form:
an occurrence whose captured name maps to a present non-nullish value is
replaced by that value's string representation, and an occurrence whose
name is absent or maps to `null`/`undefined` is left as the original
placeholder text (neither deleted nor emptied); non-string values convert
to their canonical string forms. -/
theorem claim_C4 (segs : List (Chars × Chars)) (fin : Chars)
    (vars : List (String × JItem))
    (hsegs : ∀ ln ∈ segs,
      charsSafe defaultPattern ln.1 ∧ charsSafe defaultPattern ln.2 ∧ ln.2 ≠ [])
    (hfin : charsSafe defaultPattern fin) :
    (TemplatePipe.transform (some (String.mk (render defaultPattern segs fin)))
        vars none =
      some (String.mk (segs.foldr
        (fun ln acc =>
          ln.1 ++
            (match assocFind vars (String.mk ln.2) with
              | some v =>
                if v = .prim .null ∨ v = .prim .undefined
                then defaultPattern.openD ++ ln.2 ++ defaultPattern.closeD
                else (jsToString v).data
              | none => defaultPattern.openD ++ ln.2 ++ defaultPattern.closeD) ++
            acc)
        fin))) ∧
    jsToString (.prim (.num 42)) = "42" ∧
    jsToString (.prim (.bool true)) = "true" ∧
    jsToString (.prim (.bool false)) = "false" := by
  refine ⟨?_, by decide, rfl, rfl⟩
  exact transform_render defaultPattern vars (by decide) (by decide) segs fin hsegs hfin

/-- Witness for claim C4 at the spec's example template
`Hello \x7b\x7bname\x7d\x7d!` with `name` bound to `World`. -/
theorem claim_C4_witness :
    (∀ ln ∈ [("Hello ".data, "name".data)],
      charsSafe defaultPattern ln.1 ∧ charsSafe defaultPattern ln.2 ∧ ln.2 ≠ []) ∧
    charsSafe defaultPattern "!".data ∧
    ((TemplatePipe.transform
        (some (String.mk
          (render defaultPattern [("Hello ".data, "name".data)] "!".data)))
        [("name", JItem.prim (JScalar.str "World"))] none =
      some (String.mk ([("Hello ".data, "name".data)].foldr
        (fun ln acc =>
          ln.1 ++
            (match assocFind [("name", JItem.prim (JScalar.str "World"))]
                (String.mk ln.2) with
              | some v =>
                if v = .prim .null ∨ v = .prim .undefined
                then defaultPattern.openD ++ ln.2 ++ defaultPattern.closeD
                else (jsToString v).data
              | none => defaultPattern.openD ++ ln.2 ++ defaultPattern.closeD) ++
            acc)
        "!".data))) ∧
    jsToString (.prim (.num 42)) = "42" ∧
    jsToString (.prim (.bool true)) = "true" ∧
    jsToString (.prim (.bool false)) = "false") :=
  ⟨by decide, by decide,
    claim_C4 [("Hello ".data, "name".data)] "!".data
      [("name", JItem.prim (JScalar.str "World"))] (by decide) (by decide)⟩

/-- Claim C6 (confirmed).  Global matching: with any accepted
delimiter-pair matcher (the default or a caller-supplied one), every
placeholder occurrence of a segmented template is replaced in a single
left-to-right pass, each occurrence — repeated names included — resolved
independently from the same variable map; an absent matcher behaves
exactly like the default double-curly-brace matcher. -/
theorem claim_C6 (p : DelimPattern) (segs : List (Chars × Chars)) (fin : Chars)
    (vars : List (String × JItem))
    (hpo : p.openD ≠ []) (hpc : p.closeD ≠ [])
    (hsegs : ∀ ln ∈ segs, charsSafe p ln.1 ∧ charsSafe p ln.2 ∧ ln.2 ≠ [])
    (hfin : charsSafe p fin) :
    (TemplatePipe.transform (some (String.mk (render p segs fin))) vars (some p) =
      some (String.mk (segs.foldr
        (fun ln acc =>
          ln.1 ++ resolveKey vars ln.2 (p.openD ++ ln.2 ++ p.closeD) ++ acc)
        fin))) ∧
    (∀ (t : Option String) (vs : List (String × JItem)),
      TemplatePipe.transform t vs none =
        TemplatePipe.transform t vs (some defaultPattern)) := by
  refine ⟨transform_render p vars hpo hpc segs fin hsegs hfin, ?_⟩
  intro t vs
  cases t <;> rfl

/-- Witness for claim C6 with a caller-supplied dollar-brace matcher and a
repeated placeholder name. -/
theorem claim_C6_witness :
    (['$', '\x7b'] : Chars) ≠ [] ∧ (['\x7d'] : Chars) ≠ [] ∧
    (∀ ln ∈ [(([] : Chars), "name".data), ([' '], "name".data)],
      charsSafe ⟨['$', '\x7b'], ['\x7d']⟩ ln.1 ∧
      charsSafe ⟨['$', '\x7b'], ['\x7d']⟩ ln.2 ∧ ln.2 ≠ []) ∧
    charsSafe ⟨['$', '\x7b'], ['\x7d']⟩ [] ∧
    ((TemplatePipe.transform
        (some (String.mk (render ⟨['$', '\x7b'], ['\x7d']⟩
          [(([] : Chars), "name".data), ([' '], "name".data)] [])))
        [("name", JItem.prim (JScalar.str "A"))]
        (some ⟨['$', '\x7b'], ['\x7d']⟩) =
      some (String.mk ([(([] : Chars), "name".data), ([' '], "name".data)].foldr
        (fun ln acc =>
          ln.1 ++ resolveKey [("name", JItem.prim (JScalar.str "A"))] ln.2
            ((⟨['$', '\x7b'], ['\x7d']⟩ : DelimPattern).openD ++ ln.2 ++
              (⟨['$', '\x7b'], ['\x7d']⟩ : DelimPattern).closeD) ++ acc)
        []))) ∧
    (∀ (t : Option String) (vs : List (String × JItem)),
      TemplatePipe.transform t vs none =
        TemplatePipe.transform t vs (some defaultPattern))) :=
  ⟨by decide, by decide, by decide, by decide,
    claim_C6 ⟨['$', '\x7b'], ['\x7d']⟩
      [(([] : Chars), "name".data), ([' '], "name".data)] []
      [("name", JItem.prim (JScalar.str "A"))]
      (by decide) (by decide) (by decide) (by decide)⟩
